import Mathlib

/-!
Verification of the `mmv` changeset model: the `Action` line grammar
(`impl From<S> for Action` and `impl Display for Action` in `src/changeset.rs`),
the positional sidecar import (`ChangeSetImport::import`), cleanliness
promotion (`is_clean` / `clean`), the reconciliation merge used by the
`update` command (`merge_join_by` in `src/commands/update.rs`), the sidecar
export (`ChangeSet::export`), the execution engine
(`src/commands/execute.rs`) and workspace initialization
(`src/commands/init.rs`).

Strings are modelled as lists of characters (`Str`), file paths as their
textual form (Rust `PathBuf::from` / `.display()` round-trips UTF-8 text
unchanged), `BTreeMap<PathBuf, Action>` as a strictly key-sorted association
list, and `BTreeSet<PathBuf>` as a strictly sorted list. Sidecar files are
modelled as their list of lines (plus `unlines` for byte-level statements);
the filesystem as an association list from path to file contents.
-/

namespace Mmv

/-- Textual data: Rust `str` / `String` contents as a list of characters. -/
abbrev Str := List Char

/-- Rust `char::is_whitespace`: the Unicode `White_Space` property. -/
def isWS (c : Char) : Bool :=
  c = '\u0009' || c = '\u000a' || c = '\u000b' || c = '\u000c' || c = '\u000d' ||
  c = ' ' || c = '\u0085' || c = ' ' || c = ' ' ||
  (0x2000 ≤ c.toNat && c.toNat ≤ 0x200a) ||
  c = ' ' || c = ' ' || c = ' ' || c = ' ' || c = '　'

/-- Rust `str::trim`: remove leading and trailing whitespace. -/
def trimS (s : Str) : Str :=
  ((s.dropWhile isWS).reverse.dropWhile isWS).reverse

/-- Rust `s.starts_with(char::is_whitespace)`: the first character (if any)
is whitespace. -/
def startsWS : Str → Bool
  | [] => false
  | c :: _ => isWS c

/-- The `Action` enum of `src/changeset.rs`. -/
inductive Action where
  | move (target : Str)
  | delete
  | ignore (comment : Str)
deriving DecidableEq, Repr

/-- Line parsing, `impl<S> From<S> for Action` in `src/changeset.rs`:
an all-whitespace line is `Delete`; otherwise a line starting with
whitespace is `Ignore` of the trimmed line; otherwise `Move` of the raw
line taken as a path. -/
def Action.ofLine (s : Str) : Action :=
  if trimS s = [] then .delete
  else if startsWS s then .ignore (trimS s)
  else .move s

/-- Line formatting, `impl Display for Action` in `src/changeset.rs`:
`Move` prints the path, `Delete` the empty line, `Ignore` one space then
the comment. -/
def Action.format : Action → Str
  | .move target => target
  | .delete => []
  | .ignore comment => ' ' :: comment

-- Basic facts about trimming.

theorem trimS_eq_nil_iff (s : Str) : trimS s = [] ↔ ∀ c ∈ s, isWS c = true := by
  unfold trimS
  rw [List.reverse_eq_nil_iff, List.dropWhile_eq_nil_iff]
  constructor
  · intro h c hc
    rcases (List.mem_append.mp
        (by rw [List.takeWhile_append_dropWhile] ; exact hc :
          c ∈ s.takeWhile isWS ++ s.dropWhile isWS)) with hc' | hc'
    · exact List.mem_takeWhile_imp hc'
    · exact h c (by simpa using hc')
  · intro h c hc
    exact h c (List.dropWhile_subset _ (by simpa using hc))

theorem head_dropWhile_not (p : Char → Bool) (l : Str) {c : Char} {t : Str}
    (h : l.dropWhile p = c :: t) : p c = false := by
  induction l with
  | nil => simp at h
  | cons a l ih =>
    by_cases hp : p a
    · rw [List.dropWhile_cons_of_pos hp] at h
      exact ih h
    · rw [List.dropWhile_cons_of_neg hp] at h
      cases h
      simpa using hp

theorem dropWhile_dropWhile (p : Char → Bool) (l : Str) :
    (l.dropWhile p).dropWhile p = l.dropWhile p := by
  cases h : l.dropWhile p with
  | nil => simp
  | cons c t =>
    rw [List.dropWhile_cons_of_neg (by simp [head_dropWhile_not p l h])]

theorem dropWhile_eq_trimS_append (s : Str) :
    ∃ u, s.dropWhile isWS = trimS s ++ u ∧ ∀ c ∈ u, isWS c = true := by
  refine ⟨((s.dropWhile isWS).reverse.takeWhile isWS).reverse, ?_, ?_⟩
  · conv_lhs => rw [← List.reverse_reverse (s.dropWhile isWS),
      ← List.takeWhile_append_dropWhile (p := isWS)
        (l := (s.dropWhile isWS).reverse)]
    rw [List.reverse_append]
    rfl
  · intro c hc
    exact List.mem_takeWhile_imp (by simpa using hc)

theorem head_trimS_not_ws {s : Str} {c : Char} {t : Str}
    (h : trimS s = c :: t) : isWS c = false := by
  obtain ⟨u, hu, -⟩ := dropWhile_eq_trimS_append s
  rw [h] at hu
  exact head_dropWhile_not isWS s hu

theorem trimS_idem (s : Str) : trimS (trimS s) = trimS s := by
  have h1 : (trimS s).dropWhile isWS = trimS s := by
    cases h : trimS s with
    | nil => simp
    | cons c t =>
      rw [List.dropWhile_cons_of_neg (by simp [head_trimS_not_ws h])]
  show (((trimS s).dropWhile isWS).reverse.dropWhile isWS).reverse = trimS s
  rw [h1]
  show ((((s.dropWhile isWS).reverse.dropWhile isWS).reverse).reverse.dropWhile
    isWS).reverse = trimS s
  rw [List.reverse_reverse, dropWhile_dropWhile]
  rfl

theorem trimS_ws_cons {c : Char} (h : isWS c = true) (s : Str) :
    trimS (c :: s) = trimS s := by
  show (((c :: s).dropWhile isWS).reverse.dropWhile isWS).reverse = _
  rw [List.dropWhile_cons_of_pos h]
  rfl

theorem trimS_ne_nil_of_head {c : Char} {t : Str} (h : isWS c = false) :
    trimS (c :: t) ≠ [] := by
  intro hnil
  have := (trimS_eq_nil_iff (c :: t)).mp hnil c (by simp)
  rw [h] at this
  exact Bool.false_ne_true this

/-- Keys of an association list, in order. -/
def keysOf (l : List (Str × Action)) : List Str := l.map Prod.fst

/-- Values of an association list, in order. -/
def valsOf (l : List (Str × Action)) : List Action := l.map Prod.snd

/-- Lookup in an association list (first matching key). -/
def alookup (k : Str) : List (Str × Action) → Option Action
  | [] => none
  | (q, v) :: t => if k = q then some v else alookup k t

/-- `BTreeMap::insert` on the sorted-association-list model: ordered insert,
replacing the value of an existing key (last write wins). -/
def insertSorted (k : Str) (v : Action) : List (Str × Action) → List (Str × Action)
  | [] => [(k, v)]
  | (q, w) :: t =>
    if k < q then (k, v) :: (q, w) :: t
    else if k = q then (k, v) :: t
    else (q, w) :: insertSorted k v t

/-- The `Workspace` struct of `src/changeset.rs`: a directory path. -/
structure Workspace where
  path : Str
deriving DecidableEq, Repr

/-- Rust `Path::join` for a non-empty base and a relative right-hand side:
concatenation with a separator (the only case the program exercises). -/
def joinPath (base p : Str) : Str := base ++ '/' :: p

/-- Name of the source-list sidecar file, `.mmv.sources`. -/
def mmvSourcesName : Str :=
  ['.', 'm', 'm', 'v', '.', 's', 'o', 'u', 'r', 'c', 'e', 's']

/-- Name of the target-list sidecar file, `.mmv.targets`. -/
def mmvTargetsName : Str :=
  ['.', 'm', 'm', 'v', '.', 't', 'a', 'r', 'g', 'e', 't', 's']

/-- `Workspace::sources_path`. -/
def Workspace.sourcesPath (w : Workspace) : Str := joinPath w.path mmvSourcesName

/-- `Workspace::targets_path`. -/
def Workspace.targetsPath (w : Workspace) : Str := joinPath w.path mmvTargetsName

/-- The `ChangeSet` struct: a workspace plus a key-sorted mapping from
source path to action. -/
structure ChangeSet where
  workspace : Workspace
  records : List (Str × Action)
deriving DecidableEq, Repr

/-- The `ChangeSetImport` struct: a workspace, a partially built mapping and
the two overflow lists. -/
structure ImportState where
  workspace : Workspace
  records : List (Str × Action)
  unmappedSources : List Str
  unmappedTargets : List Action
deriving DecidableEq, Repr

/-- The pairing loop of `ChangeSetImport::import`: read both files in
lockstep; paired lines go to the mapping, the overhang of either file goes
to the corresponding overflow list. -/
def importGo (w : Workspace) (acc : List (Str × Action)) :
    List Str → List Str → ImportState
  | s :: ss, t :: ts => importGo w (insertSorted s (Action.ofLine t) acc) ss ts
  | ss, [] => ⟨w, acc, ss, []⟩
  | [], ts => ⟨w, acc, [], ts.map Action.ofLine⟩

/-- `ChangeSetImport::import`, with the two sidecar files given as their
lists of lines. -/
def importLines (w : Workspace) (srcLines tgtLines : List Str) : ImportState :=
  importGo w [] srcLines tgtLines

/-- `ChangeSetImport::is_clean`. -/
def ImportState.isClean (st : ImportState) : Bool :=
  st.unmappedSources.isEmpty && st.unmappedTargets.isEmpty

/-- `ChangeSetImport::clean`. -/
def ImportState.clean (st : ImportState) : Option ChangeSet :=
  if st.isClean then some ⟨st.workspace, st.records⟩ else none

/-- Lines of the source-list file written by `ChangeSet::export`. -/
def exportSources (records : List (Str × Action)) : List Str :=
  records.map Prod.fst

/-- Lines of the target-list file written by `ChangeSet::export`. -/
def exportTargets (records : List (Str × Action)) : List Str :=
  records.map (fun r => r.2.format)

/-- File bytes from lines: each line is written with a trailing newline
(`writeln!`). -/
def unlines (ls : List Str) : Str := ls.foldr (fun l acc => l ++ '\n' :: acc) []

/-- The ordered merge-join of the `update` command
(`Itertools::merge_join_by` over the scanned tree and the old mapping,
compared by path): a path only in the tree is added with an `Ignore` whose
comment is the path's display text, a path only in the mapping is dropped,
a path in both keeps the mapping's entry. -/
def mergeRecords : List Str → List (Str × Action) → List (Str × Action)
  | [], _ => []
  | p :: ps, [] => (p, .ignore p) :: mergeRecords ps []
  | p :: ps, (k, v) :: rs =>
    if p < k then (p, .ignore p) :: mergeRecords ps ((k, v) :: rs)
    else if p = k then (k, v) :: mergeRecords ps rs
    else mergeRecords (p :: ps) rs
termination_by tree recs => tree.length + recs.length

/-- The domain errors of `ProgramError` in `src/main.rs`. -/
inductive ProgramError where
  | notInitialized
  | notClean
  | internalError
deriving DecidableEq, Repr

/-- The `update` command (`src/commands/update.rs::run`) after the workspace
has been opened, with the fresh tree scan given as a sorted list: import the
sidecar files, require cleanliness, merge against the tree and export the
new sidecar lines. -/
def updateRun (w : Workspace) (tree : List Str) (srcLines tgtLines : List Str) :
    Except ProgramError (List Str × List Str) :=
  match (importLines w srcLines tgtLines).clean with
  | none => .error .notClean
  | some cs =>
    let records := mergeRecords tree cs.records
    .ok (exportSources records, exportTargets records)

-- Filesystem model for execution and initialization.

/-- Filesystem contents: an association list from path to file bytes. -/
abbrev FS := List (Str × Str)

/-- Contents of the file at a path, if present. -/
def fsGet : FS → Str → Option Str
  | [], _ => none
  | (q, c) :: t, p => if p = q then some c else fsGet t p

/-- Create or overwrite the file at a path. -/
def fsSet : FS → Str → Str → FS
  | [], p, c => [(p, c)]
  | (q, d) :: t, p, c => if p = q then (p, c) :: t else (q, d) :: fsSet t p c

/-- Remove the file at a path. -/
def fsRemove : FS → Str → FS
  | [], _ => []
  | (q, d) :: t, p => if p = q then fsRemove t p else (q, d) :: fsRemove t p

/-- The primitive filesystem operations issued by the execution engine. -/
inductive FSOp where
  | mkdirs (dir : Str)
  | copyFile (src dst : Str)
  | removeFile (p : Str)
deriving DecidableEq, Repr

/-- Effect of one operation: `create_dir_all` never touches files,
`reflink_or_copy` duplicates the source's bytes to the destination
(failing when the source is missing), `remove_file` deletes the file
(failing when it is missing). -/
def applyOp (fs : FS) : FSOp → Option FS
  | .mkdirs _ => some fs
  | .copyFile s d =>
    match fsGet fs s with
    | none => none
    | some c => some (fsSet fs d c)
  | .removeFile p =>
    match fsGet fs p with
    | none => none
    | some _ => some (fsRemove fs p)

/-- Whether an operation can write to or delete the file at path `q`. -/
def opTouches (op : FSOp) (q : Str) : Bool :=
  match op with
  | .mkdirs _ => false
  | .copyFile _ d => d = q
  | .removeFile p => p = q

/-- Run operations in order, stopping at the first failure (the `?`
operator): the returned flag is `false` iff some operation failed. -/
def runOps (fs : FS) : List FSOp → FS × Bool
  | [] => (fs, true)
  | op :: ops =>
    match applyOp fs op with
    | none => (fs, false)
    | some fs' => runOps fs' ops

/-- Rust `Path::parent` on the joined paths the program builds: everything
before the last separator; the empty path for a separator-free name; nothing
for the empty path. -/
def parentDir (p : Str) : Option Str :=
  if p = [] then none
  else
    match p.reverse.dropWhile (fun c => c ≠ '/') with
    | [] => some []
    | _ :: rest => some rest.reverse

/-- Operations of the `Action::Move` arm of `src/commands/execute.rs::run`:
create the destination's missing parent directories, duplicate the source to
the destination, then remove the source. -/
def moveOps (source target : Str) : List FSOp :=
  ((parentDir target).toList.map FSOp.mkdirs) ++
    [FSOp.copyFile source target, FSOp.removeFile source]

/-- Operations of one record of the execution loop. -/
def actionOps (wsPath tgtRoot : Str) : Str × Action → List FSOp
  | (source, .move p) => moveOps (joinPath wsPath source) (joinPath tgtRoot p)
  | (source, .delete) => [FSOp.removeFile (joinPath wsPath source)]
  | (_, .ignore _) => []

/-- The execution loop of `src/commands/execute.rs::run`: records in path
order, each record's operations in order, aborting the whole loop at the
first failing operation. -/
def execRecords (wsPath tgtRoot : Str) (fs : FS) :
    List (Str × Action) → FS × Bool
  | [] => (fs, true)
  | r :: rs =>
    match runOps fs (actionOps wsPath tgtRoot r) with
    | (fs', true) => execRecords wsPath tgtRoot fs' rs
    | (fs', false) => (fs', false)

/-- The `execute` command after the workspace has been opened: import the
sidecar files, require cleanliness, then run the execution loop. -/
def executeRun (w : Workspace) (tgtRoot : Str) (srcLines tgtLines : List Str)
    (fs : FS) : Except ProgramError (FS × Bool) :=
  match (importLines w srcLines tgtLines).clean with
  | none => .error .notClean
  | some cs => .ok (execRecords w.path tgtRoot fs cs.records)

/-- Modelled from the spec: `Workspace::is_initialized`, used by
`src/commands/init.rs` but not present in `src/changeset.rs`; per §4.2/§6 a
workspace is initialized when both sidecar files exist. -/
def isInitialized (w : Workspace) (fs : FS) : Bool :=
  (fsGet fs w.sourcesPath).isSome && (fsGet fs w.targetsPath).isSome

/-- The all-`Ignore` mapping built by `init` from a fresh tree scan
(collected into a `BTreeMap`). -/
def initRecords (tree : List Str) : List (Str × Action) :=
  tree.foldl (fun acc p => insertSorted p (.ignore p) acc) []

/-- `ChangeSet::export` writing both sidecar files into the filesystem. -/
def writeSidecars (w : Workspace) (records : List (Str × Action)) (fs : FS) : FS :=
  fsSet (fsSet fs w.sourcesPath (unlines (exportSources records)))
    w.targetsPath (unlines (exportTargets records))

/-- The `init` command (`src/commands/init.rs::run`): refuse when already
initialized and not forced; otherwise scan the tree and export an
all-`Ignore` changeset. -/
def initRun (w : Workspace) (force : Bool) (tree : List Str) (fs : FS) : FS :=
  if !force && isInitialized w fs then fs
  else writeSidecars w (initRecords tree) fs

-- Round-trip behaviour of parsing after formatting.

theorem ofLine_format_delete : Action.ofLine (Action.format .delete) = .delete := rfl

theorem ofLine_format_move {p : Str} (h1 : p ≠ []) (h2 : startsWS p = false) :
    Action.ofLine (Action.format (.move p)) = .move p := by
  cases p with
  | nil => exact absurd rfl h1
  | cons c t =>
    have hc : isWS c = false := by simpa [startsWS] using h2
    show Action.ofLine (c :: t) = _
    rw [Action.ofLine, if_neg (trimS_ne_nil_of_head hc)]
    simp [startsWS, hc]

theorem ofLine_format_ignore {c : Str} (h1 : trimS c = c) (h2 : c ≠ []) :
    Action.ofLine (Action.format (.ignore c)) = .ignore c := by
  have hsp : isWS ' ' = true := by decide
  show Action.ofLine (' ' :: c) = _
  rw [Action.ofLine, trimS_ws_cons hsp, h1, if_neg h2]
  simp [startsWS, hsp]

/-- Parsing classifies every line into one of the three shapes; this spells
out `Action.ofLine` case by case. -/
theorem ofLine_cases (s : Str) :
    (trimS s = [] → Action.ofLine s = .delete) ∧
    (trimS s ≠ [] → startsWS s = true → Action.ofLine s = .ignore (trimS s)) ∧
    (trimS s ≠ [] → startsWS s = false → Action.ofLine s = .move s) := by
  refine ⟨fun h => ?_, fun h hws => ?_, fun h hws => ?_⟩
  · rw [Action.ofLine, if_pos h]
  · rw [Action.ofLine, if_neg h, if_pos hws]
  · rw [Action.ofLine, if_neg h]
    simp [hws]

theorem ofLine_format_ofLine (s : Str) :
    Action.ofLine (Action.format (Action.ofLine s)) = Action.ofLine s := by
  by_cases h : trimS s = []
  · rw [(ofLine_cases s).1 h]
    rfl
  · cases hws : startsWS s with
    | true =>
      rw [(ofLine_cases s).2.1 h hws]
      exact ofLine_format_ignore (trimS_idem s) h
    | false =>
      rw [(ofLine_cases s).2.2 h hws]
      refine ofLine_format_move ?_ hws
      intro hnil
      subst hnil
      exact h rfl

-- Structure of the import loop.

theorem importGo_workspace (w : Workspace) (acc : List (Str × Action))
    (S T : List Str) : (importGo w acc S T).workspace = w := by
  induction S generalizing T acc with
  | nil => cases T <;> rfl
  | cons s ss ih => cases T with
    | nil => rfl
    | cons t ts => exact ih _ _

theorem importGo_unmappedSources (w : Workspace) (acc : List (Str × Action))
    (S T : List Str) :
    (importGo w acc S T).unmappedSources = S.drop T.length := by
  induction S generalizing T acc with
  | nil => cases T <;> rfl
  | cons s ss ih => cases T with
    | nil => rfl
    | cons t ts => exact ih _ _

theorem importGo_unmappedTargets (w : Workspace) (acc : List (Str × Action))
    (S T : List Str) :
    (importGo w acc S T).unmappedTargets = (T.drop S.length).map Action.ofLine := by
  induction S generalizing T acc with
  | nil => cases T <;> rfl
  | cons s ss ih => cases T with
    | nil => rfl
    | cons t ts => exact ih _ _

theorem insertSorted_length_le (k : Str) (v : Action) (l : List (Str × Action)) :
    (insertSorted k v l).length ≤ l.length + 1 := by
  induction l with
  | nil => simp [insertSorted]
  | cons h t ih =>
    obtain ⟨q, w⟩ := h
    rw [insertSorted]
    split
    · simp
    · split
      · simp
      · simpa using Nat.succ_le_succ ih

theorem importGo_records_length (w : Workspace) (acc : List (Str × Action))
    (S T : List Str) :
    (importGo w acc S T).records.length ≤ acc.length + min S.length T.length := by
  induction S generalizing T acc with
  | nil => cases T <;> simp [importGo]
  | cons s ss ih =>
    cases T with
    | nil => simp [importGo]
    | cons t ts =>
      have h1 := ih (insertSorted s (Action.ofLine t) acc) ts
      have h2 := insertSorted_length_le s (Action.ofLine t) acc
      show (importGo w (insertSorted s (Action.ofLine t) acc) ss ts).records.length ≤ _
      simp only [List.length_cons]
      omega

theorem alookup_insertSorted (k q : Str) (v : Action) (l : List (Str × Action)) :
    alookup k (insertSorted q v l) = if k = q then some v else alookup k l := by
  induction l with
  | nil => simp [insertSorted, alookup]
  | cons hd t ih =>
    obtain ⟨a, b⟩ := hd
    rw [insertSorted]
    split
    · rfl
    · rename_i hlt
      split
      · rename_i heq
        subst heq
        simp only [alookup]
        by_cases hk : k = q <;> simp [hk]
      · rename_i heq
        simp only [alookup, ih]
        by_cases hk : k = a
        · have hkq : ¬k = q := fun h => heq ((hk.symm.trans h).symm)
          have haq : ¬a = q := fun h => heq h.symm
          simp [hk, hkq, haq]
        · simp [hk]

theorem alookup_append (k : Str) (a b : List (Str × Action)) :
    alookup k (a ++ b) = (alookup k a).or (alookup k b) := by
  induction a with
  | nil => simp [alookup]
  | cons h t ih =>
    obtain ⟨q, v⟩ := h
    rw [List.cons_append, alookup, alookup]
    split
    · rfl
    · exact ih

theorem importGo_alookup (w : Workspace) (acc : List (Str × Action))
    (S T : List Str) (k : Str) :
    alookup k (importGo w acc S T).records =
      (alookup k ((S.zip (T.map Action.ofLine)).reverse)).or (alookup k acc) := by
  induction S generalizing T acc with
  | nil => cases T <;> simp [importGo, alookup]
  | cons s ss ih =>
    cases T with
    | nil => simp [importGo, alookup]
    | cons t ts =>
      rw [importGo, ih, List.map_cons, List.zip_cons_cons, List.reverse_cons,
        alookup_append, Option.or_assoc]
      congr 1
      rw [alookup_insertSorted, alookup]
      by_cases hk : k = s <;> simp [hk, alookup]

theorem importLines_isClean_iff (w : Workspace) (S T : List Str) :
    (importLines w S T).isClean = true ↔ S.length = T.length := by
  rw [ImportState.isClean, Bool.and_eq_true, List.isEmpty_iff, List.isEmpty_iff,
    importLines, importGo_unmappedSources, importGo_unmappedTargets]
  rw [List.map_eq_nil_iff, List.drop_eq_nil_iff, List.drop_eq_nil_iff]
  omega

theorem alookup_eq_none_iff (k : Str) (l : List (Str × Action)) :
    alookup k l = none ↔ k ∉ keysOf l := by
  induction l with
  | nil => simp [alookup, keysOf]
  | cons hd t ih =>
    obtain ⟨a, b⟩ := hd
    simp only [alookup, keysOf, List.map_cons, List.mem_cons]
    by_cases hk : k = a
    · rw [if_pos hk]
      constructor
      · intro h
        exact absurd h (by simp)
      · intro h
        exact absurd (Or.inl hk) h
    · rw [if_neg hk, ih]
      rw [keysOf]
      constructor
      · intro h hor
        exact h (hor.resolve_left hk)
      · intro h hm
        exact h (Or.inr hm)

theorem alookup_mem_vals {k : Str} {v : Action} {l : List (Str × Action)}
    (h : alookup k l = some v) : v ∈ valsOf l := by
  induction l with
  | nil => simp [alookup] at h
  | cons hd t ih =>
    obtain ⟨a, b⟩ := hd
    rw [alookup] at h
    by_cases hk : k = a
    · rw [if_pos hk] at h
      cases h
      rw [valsOf, List.map_cons]
      exact List.mem_cons_self _ _
    · rw [if_neg hk] at h
      rw [valsOf, List.map_cons]
      exact List.mem_cons_of_mem _ (ih h)

theorem insertSorted_append_of_lt {k : Str} (v : Action)
    {l : List (Str × Action)} (h : ∀ q ∈ keysOf l, q < k) :
    insertSorted k v l = l ++ [(k, v)] := by
  induction l with
  | nil => rfl
  | cons hd t ih =>
    obtain ⟨a, b⟩ := hd
    have ha : a < k := h a (by rw [keysOf, List.map_cons] ; exact List.mem_cons_self _ _)
    rw [insertSorted, if_neg (asymm ha), if_neg (ne_of_gt ha), ih]
    · rfl
    · intro q hq
      refine h q ?_
      rw [keysOf, List.map_cons]
      exact List.mem_cons_of_mem _ hq

theorem importGo_eq_of_sorted (w : Workspace) (acc : List (Str × Action))
    (S T : List Str) (hlen : S.length = T.length)
    (hsort : List.Sorted (· < ·) (keysOf acc ++ S)) :
    importGo w acc S T = ⟨w, acc ++ S.zip (T.map Action.ofLine), [], []⟩ := by
  induction S generalizing T acc with
  | nil =>
    cases T with
    | nil => simp [importGo]
    | cons t ts => simp at hlen
  | cons s ss ih =>
    cases T with
    | nil => simp at hlen
    | cons t ts =>
      have hall : ∀ q ∈ keysOf acc, q < s := by
        intro q hq
        have := (List.pairwise_append.mp hsort).2.2
        exact this q hq s (by simp)
      rw [importGo, insertSorted_append_of_lt _ hall,
        ih (acc ++ [(s, Action.ofLine t)]) ts (by simpa using hlen) ?_]
      · simp [List.zip_cons_cons]
      · have : keysOf (acc ++ [(s, Action.ofLine t)]) ++ ss =
            keysOf acc ++ s :: ss := by
          simp [keysOf]
        rw [this]
        exact hsort

theorem keysOf_zip (S : List Str) (T : List Action) (h : S.length ≤ T.length) :
    keysOf (S.zip T) = S :=
  List.map_fst_zip S T h

-- Structure of the reconciliation merge.

theorem mergeRecords_keys (tree : List Str) (recs : List (Str × Action)) :
    keysOf (mergeRecords tree recs) = tree := by
  induction tree, recs using mergeRecords.induct with
  | case1 recs => rw [mergeRecords] ; rfl
  | case2 p ps ih =>
    rw [mergeRecords, keysOf, List.map_cons]
    rw [keysOf] at ih
    rw [ih]
  | case3 p ps k v rs hlt ih =>
    rw [mergeRecords, if_pos hlt, keysOf, List.map_cons]
    rw [keysOf] at ih
    rw [ih]
  | case4 ps k v rs hlt ih =>
    rw [mergeRecords, if_neg hlt, if_pos rfl, keysOf, List.map_cons]
    rw [keysOf] at ih
    rw [ih]
  | case5 p ps k v rs hlt heq ih =>
    rw [mergeRecords, if_neg hlt, if_neg heq]
    exact ih

theorem alookup_eq_none_of_lt {p k : Str} {v : Action} {rs : List (Str × Action)}
    (hsort : List.Sorted (· < ·) (keysOf ((k, v) :: rs))) (hpk : p < k) :
    alookup p ((k, v) :: rs) = none := by
  rw [alookup_eq_none_iff]
  intro hmem
  rw [keysOf, List.map_cons] at hmem hsort
  rcases List.mem_cons.mp hmem with h | h
  · rw [h] at hpk
    exact absurd hpk (lt_irrefl _)
  · have hk := (List.sorted_cons.mp hsort).1 _ h
    exact absurd (hpk.trans hk) (lt_irrefl _)

theorem mergeRecords_alookup (p : Str) (tree : List Str)
    (recs : List (Str × Action)) :
    List.Sorted (· < ·) tree → List.Sorted (· < ·) (keysOf recs) → p ∈ tree →
    alookup p (mergeRecords tree recs) =
      (alookup p recs).or (some (.ignore p)) := by
  induction tree, recs using mergeRecords.induct with
  | case1 recs =>
    intro _ _ hp
    exact absurd hp (List.not_mem_nil p)
  | case2 q ps ih =>
    intro ht _ hp
    rw [mergeRecords]
    simp only [alookup]
    by_cases hpq : p = q
    · rw [if_pos hpq, hpq]
      rfl
    · rw [if_neg hpq]
      have hp' : p ∈ ps := (List.mem_cons.mp hp).resolve_left hpq
      rw [ih (List.sorted_cons.mp ht).2 (by rw [keysOf] ; simp) hp']
      rfl
  | case3 q ps k v rs hlt ih =>
    intro ht hr hp
    rw [mergeRecords, if_pos hlt, alookup]
    by_cases hpq : p = q
    · rw [if_pos hpq]
      rw [alookup_eq_none_of_lt hr (by rw [hpq] ; exact hlt), hpq]
      rfl
    · rw [if_neg hpq]
      have hp' : p ∈ ps := (List.mem_cons.mp hp).resolve_left hpq
      exact ih (List.sorted_cons.mp ht).2 hr hp'
  | case4 ps k v rs hlt ih =>
    intro ht hr hp
    rw [mergeRecords, if_neg hlt, if_pos rfl, alookup, alookup]
    by_cases hpk : p = k
    · rw [if_pos hpk, if_pos hpk]
      rfl
    · rw [if_neg hpk, if_neg hpk]
      have hp' : p ∈ ps := (List.mem_cons.mp hp).resolve_left hpk
      refine ih (List.sorted_cons.mp ht).2 ?_ hp'
      rw [keysOf, List.map_cons] at hr
      exact (List.sorted_cons.mp hr).2
  | case5 q ps k v rs hlt heq ih =>
    intro ht hr hp
    rw [mergeRecords, if_neg hlt, if_neg heq, alookup]
    have hkq : k < q := lt_of_le_of_ne (not_lt.mp hlt) (fun h => heq h.symm)
    have hpk : ¬p = k := by
      rcases List.mem_cons.mp hp with h | h
      · intro hc
        rw [h] at hc
        rw [hc] at hkq
        exact absurd hkq (lt_irrefl _)
      · intro hc
        have hqp : q < p := (List.sorted_cons.mp ht).1 _ h
        rw [hc] at hqp
        exact absurd (hkq.trans hqp) (lt_irrefl _)
    rw [if_neg hpk]
    refine ih ht ?_ hp
    rw [keysOf, List.map_cons] at hr
    exact (List.sorted_cons.mp hr).2

theorem mergeRecords_self (recs : List (Str × Action))
    (h : List.Sorted (· < ·) (keysOf recs)) :
    mergeRecords (keysOf recs) recs = recs := by
  induction recs with
  | nil => rw [keysOf, List.map_nil, mergeRecords]
  | cons hd t ih =>
    obtain ⟨k, v⟩ := hd
    rw [keysOf, List.map_cons, mergeRecords, if_neg (lt_irrefl k), if_pos rfl]
    rw [keysOf, List.map_cons] at h
    rw [show (List.map Prod.fst t : List Str) = keysOf t from rfl,
      ih (List.sorted_cons.mp h).2]

theorem mergeRecords_vals {x : Action} (tree : List Str)
    (recs : List (Str × Action)) :
    x ∈ valsOf (mergeRecords tree recs) →
      x ∈ valsOf recs ∨ ∃ p ∈ tree, x = .ignore p := by
  induction tree, recs using mergeRecords.induct with
  | case1 recs =>
    intro hx
    rw [mergeRecords] at hx
    exact absurd hx (by rw [valsOf] ; simp)
  | case2 q ps ih =>
    intro hx
    rw [mergeRecords, valsOf, List.map_cons] at hx
    rcases List.mem_cons.mp hx with h | h
    · exact Or.inr ⟨q, List.mem_cons_self _ _, h⟩
    · rcases ih h with h' | ⟨r, hr, hxr⟩
      · exact absurd h' (by rw [valsOf] ; simp)
      · exact Or.inr ⟨r, List.mem_cons_of_mem _ hr, hxr⟩
  | case3 q ps k v rs hlt ih =>
    intro hx
    rw [mergeRecords, if_pos hlt, valsOf, List.map_cons] at hx
    rcases List.mem_cons.mp hx with h | h
    · exact Or.inr ⟨q, List.mem_cons_self _ _, h⟩
    · rcases ih h with h' | ⟨r, hr, hxr⟩
      · exact Or.inl h'
      · exact Or.inr ⟨r, List.mem_cons_of_mem _ hr, hxr⟩
  | case4 ps k v rs hlt ih =>
    intro hx
    rw [mergeRecords, if_neg hlt, if_pos rfl, valsOf, List.map_cons] at hx
    rcases List.mem_cons.mp hx with h | h
    · refine Or.inl ?_
      rw [valsOf, List.map_cons]
      exact h ▸ List.mem_cons_self _ _
    · rcases ih h with h' | ⟨r, hr, hxr⟩
      · refine Or.inl ?_
        rw [valsOf, List.map_cons]
        exact List.mem_cons_of_mem _ h'
      · exact Or.inr ⟨r, List.mem_cons_of_mem _ hr, hxr⟩
  | case5 q ps k v rs hlt heq ih =>
    intro hx
    rw [mergeRecords, if_neg hlt, if_neg heq] at hx
    rcases ih hx with h' | hr
    · refine Or.inl ?_
      rw [valsOf, List.map_cons]
      exact List.mem_cons_of_mem _ h'
    · exact Or.inr hr

theorem vals_insertSorted {x : Action} (k : Str) (v : Action)
    (l : List (Str × Action)) :
    x ∈ valsOf (insertSorted k v l) → x = v ∨ x ∈ valsOf l := by
  induction l with
  | nil =>
    intro hx
    rw [insertSorted, valsOf] at hx
    exact Or.inl (by simpa using hx)
  | cons hd t ih =>
    obtain ⟨a, b⟩ := hd
    intro hx
    rw [insertSorted] at hx
    split at hx
    · rw [valsOf, List.map_cons, List.map_cons] at hx
      rcases List.mem_cons.mp hx with h | h
      · exact Or.inl h
      · exact Or.inr (by rw [valsOf] ; exact h)
    · split at hx
      · rw [valsOf, List.map_cons] at hx
        rcases List.mem_cons.mp hx with h | h
        · exact Or.inl h
        · refine Or.inr ?_
          rw [valsOf, List.map_cons]
          exact List.mem_cons_of_mem _ h
      · rw [valsOf, List.map_cons] at hx
        rcases List.mem_cons.mp hx with h | h
        · refine Or.inr ?_
          rw [valsOf, List.map_cons]
          exact h ▸ List.mem_cons_self _ _
        · rcases ih (by rw [valsOf] ; exact h) with h' | h'
          · exact Or.inl h'
          · refine Or.inr ?_
            rw [valsOf, List.map_cons]
            exact List.mem_cons_of_mem _ h'

theorem importGo_vals {x : Action} (w : Workspace) (acc : List (Str × Action))
    (S T : List Str) :
    x ∈ valsOf (importGo w acc S T).records →
      x ∈ valsOf acc ∨ ∃ t, x = Action.ofLine t := by
  induction S generalizing T acc with
  | nil =>
    intro hx
    cases T <;> exact Or.inl hx
  | cons s ss ih =>
    intro hx
    cases T with
    | nil => exact Or.inl hx
    | cons t ts =>
      rw [importGo] at hx
      rcases ih _ _ hx with h | h
      · rcases vals_insertSorted _ _ _ h with h' | h'
        · exact Or.inr ⟨t, h'⟩
        · exact Or.inl h'
      · exact Or.inr h

-- Re-importing an exported changeset.

theorem import_of_exported (w : Workspace) (R : List (Str × Action))
    (hsort : List.Sorted (· < ·) (keysOf R)) :
    importLines w (exportSources R) (exportTargets R) =
      ⟨w, R.map (fun r => (r.1, Action.ofLine (Action.format r.2))), [], []⟩ := by
  rw [importLines, importGo_eq_of_sorted w [] (exportSources R) (exportTargets R)
      (by rw [exportSources, exportTargets, List.length_map, List.length_map])
      (by rw [keysOf] ; exact hsort)]
  rw [exportSources, exportTargets, List.map_map, List.zip_map']
  rfl

theorem map_reparse_id (R : List (Str × Action))
    (h : ∀ v ∈ valsOf R, Action.ofLine (Action.format v) = v) :
    R.map (fun r => (r.1, Action.ofLine (Action.format r.2))) = R := by
  have hid : R.map (fun r => (r.1, Action.ofLine (Action.format r.2))) = R.map id := by
    refine List.map_congr_left ?_
    intro r hr
    rw [h r.2 (by rw [valsOf] ; exact List.mem_map_of_mem _ hr)]
    rfl
  rw [hid, List.map_id]

theorem merged_vals_reparse (w : Workspace) (tree S T : List Str)
    (hpaths : ∀ p ∈ tree, trimS p = p ∧ p ≠ []) :
    ∀ v ∈ valsOf (mergeRecords tree (importLines w S T).records),
      Action.ofLine (Action.format v) = v := by
  intro v hv
  rcases mergeRecords_vals _ _ hv with h | ⟨p, hp, hvp⟩
  · rcases importGo_vals w [] S T h with h' | ⟨t, ht⟩
    · exact absurd h' (by rw [valsOf] ; simp)
    · rw [ht]
      exact ofLine_format_ofLine t
  · rw [hvp]
    exact ofLine_format_ignore (hpaths p hp).1 (hpaths p hp).2

theorem updateRun_clean_eq (w : Workspace) (tree S T : List Str)
    (h : S.length = T.length) :
    updateRun w tree S T = .ok
      (exportSources (mergeRecords tree (importLines w S T).records),
       exportTargets (mergeRecords tree (importLines w S T).records)) := by
  have hc : (importLines w S T).isClean = true :=
    (importLines_isClean_iff w S T).mpr h
  unfold updateRun
  rw [ImportState.clean, if_pos hc]

theorem updateRun_not_clean (w : Workspace) (tree S T : List Str)
    (h : ¬S.length = T.length) :
    updateRun w tree S T = .error .notClean := by
  have hc : ¬(importLines w S T).isClean = true :=
    fun hcl => h ((importLines_isClean_iff w S T).mp hcl)
  unfold updateRun
  rw [ImportState.clean, if_neg hc]

-- Filesystem lemmas.

theorem fsGet_fsSet (fs : FS) (p c q : Str) :
    fsGet (fsSet fs p c) q = if q = p then some c else fsGet fs q := by
  induction fs with
  | nil => simp [fsSet, fsGet]
  | cons hd t ih =>
    obtain ⟨a, d⟩ := hd
    rw [fsSet]
    by_cases hpa : p = a
    · rw [if_pos hpa, fsGet, fsGet]
      by_cases hq : q = p
      · rw [if_pos hq, if_pos hq]
      · rw [if_neg hq, if_neg hq,
          if_neg (show ¬q = a from fun h => hq (h.trans hpa.symm))]
    · rw [if_neg hpa, fsGet, fsGet, ih]
      by_cases hq : q = a
      · have hqp : ¬q = p := fun h => hpa ((h.symm.trans hq))
        rw [if_pos hq, if_neg hqp, if_pos hq]
      · rw [if_neg hq, if_neg hq]

theorem fsGet_fsRemove (fs : FS) (p q : Str) :
    fsGet (fsRemove fs p) q = if q = p then none else fsGet fs q := by
  induction fs with
  | nil => simp [fsRemove, fsGet]
  | cons hd t ih =>
    obtain ⟨a, d⟩ := hd
    rw [fsRemove]
    by_cases hpa : p = a
    · rw [if_pos hpa, ih, fsGet]
      by_cases hq : q = p
      · rw [if_pos hq, if_pos hq]
      · rw [if_neg hq, if_neg hq,
          if_neg (show ¬q = a from fun h => hq (h.trans hpa.symm))]
    · rw [if_neg hpa, fsGet, fsGet, ih]
      by_cases hq : q = a
      · have hqp : ¬q = p := fun h => hpa ((h.symm.trans hq))
        rw [if_pos hq, if_neg hqp, if_pos hq]
      · rw [if_neg hq, if_neg hq]

theorem applyOp_preserve {fs fs' : FS} {op : FSOp} {q : Str}
    (hap : applyOp fs op = some fs') (hop : opTouches op q = false) :
    fsGet fs' q = fsGet fs q := by
  cases op with
  | mkdirs d =>
    cases hap
    rfl
  | copyFile s d =>
    rw [applyOp] at hap
    rw [opTouches] at hop
    cases hc : fsGet fs s with
    | none => rw [hc] at hap ; exact absurd hap (by simp)
    | some c =>
      rw [hc] at hap
      cases hap
      rw [fsGet_fsSet, if_neg (show ¬q = d from fun h => by simp [h.symm] at hop)]
  | removeFile p =>
    rw [applyOp] at hap
    rw [opTouches] at hop
    cases hc : fsGet fs p with
    | none => rw [hc] at hap ; exact absurd hap (by simp)
    | some c =>
      rw [hc] at hap
      cases hap
      rw [fsGet_fsRemove, if_neg (show ¬q = p from fun h => by simp [h.symm] at hop)]

theorem runOps_preserve (q : Str) (fs : FS) (ops : List FSOp)
    (h : ∀ op ∈ ops, opTouches op q = false) :
    fsGet (runOps fs ops).1 q = fsGet fs q := by
  induction ops generalizing fs with
  | nil => rfl
  | cons op ops ih =>
    rw [runOps]
    cases hap : applyOp fs op with
    | none => rfl
    | some fs' =>
      rw [ih fs' (fun o ho => h o (List.mem_cons_of_mem _ ho))]
      exact applyOp_preserve hap (h op (List.mem_cons_self _ _))

theorem execRecords_preserve (wsPath tgtRoot q : Str) (fs : FS)
    (records : List (Str × Action))
    (h : ∀ r ∈ records, ∀ op ∈ actionOps wsPath tgtRoot r,
      opTouches op q = false) :
    fsGet (execRecords wsPath tgtRoot fs records).1 q = fsGet fs q := by
  induction records generalizing fs with
  | nil => rfl
  | cons r rs ih =>
    rw [execRecords]
    have hr := runOps_preserve q fs (actionOps wsPath tgtRoot r)
      (h r (List.mem_cons_self _ _))
    cases hrun : runOps fs (actionOps wsPath tgtRoot r) with
    | mk fs' ok =>
      rw [hrun] at hr
      cases ok with
      | true =>
        rw [ih fs' (fun r' hr' => h r' (List.mem_cons_of_mem _ hr'))]
        exact hr
      | false => exact hr

theorem execRecords_first_failure (wsPath tgtRoot : Str) (fs fs₁ fs₂ : FS)
    (rs₁ rs₂ : List (Str × Action)) (r : Str × Action)
    (h1 : execRecords wsPath tgtRoot fs rs₁ = (fs₁, true))
    (h2 : runOps fs₁ (actionOps wsPath tgtRoot r) = (fs₂, false)) :
    execRecords wsPath tgtRoot fs (rs₁ ++ r :: rs₂) = (fs₂, false) := by
  induction rs₁ generalizing fs with
  | nil =>
    rw [execRecords] at h1
    cases h1
    rw [List.nil_append, execRecords, h2]
  | cons r0 rs ih =>
    rw [execRecords] at h1
    rw [List.cons_append, execRecords]
    cases hrun : runOps fs (actionOps wsPath tgtRoot r0) with
    | mk fs' ok =>
      rw [hrun] at h1
      cases ok with
      | true => exact ih fs' h1
      | false => exact absurd h1 (by simp)

-- Behaviour of a single move.

theorem moveOps_take_source (source target : Str) (fs : FS) (k : Nat)
    (hk : k < (moveOps source target).length) :
    fsGet (runOps fs ((moveOps source target).take k)).1 source =
      fsGet fs source := by
  have hcopy : ∀ fs' : FS,
      fsGet (runOps fs' [FSOp.copyFile source target]).1 source =
        fsGet fs' source := by
    intro fs'
    cases hc : fsGet fs' source with
    | none => simp [runOps, applyOp, hc]
    | some c =>
      simp only [runOps, applyOp, hc]
      rw [fsGet_fsSet]
      by_cases hst : source = target
      · rw [if_pos hst]
      · rw [if_neg hst]
        exact hc
  cases hpar : parentDir target with
  | none =>
    have hops : moveOps source target =
        [FSOp.copyFile source target, FSOp.removeFile source] := by
      rw [moveOps, hpar]
      rfl
    rw [hops] at hk ⊢
    match k, hk with
    | 0, _ => rfl
    | 1, _ => exact hcopy fs
  | some par =>
    have hops : moveOps source target =
        [FSOp.mkdirs par, FSOp.copyFile source target,
          FSOp.removeFile source] := by
      rw [moveOps, hpar]
      rfl
    rw [hops] at hk ⊢
    match k, hk with
    | 0, _ => rfl
    | 1, _ => rfl
    | 2, _ => exact hcopy fs

theorem moveOps_success (source target : Str) (fs : FS) (c : Str)
    (hc : fsGet fs source = some c) (hne : target ≠ source) :
    (runOps fs (moveOps source target)).2 = true ∧
    fsGet (runOps fs (moveOps source target)).1 target = some c ∧
    fsGet (runOps fs (moveOps source target)).1 source = none := by
  have hrest : ∀ fs' : FS, fsGet fs' source = some c →
      (runOps fs' [FSOp.copyFile source target, FSOp.removeFile source]).2 = true ∧
      fsGet (runOps fs' [FSOp.copyFile source target,
        FSOp.removeFile source]).1 target = some c ∧
      fsGet (runOps fs' [FSOp.copyFile source target,
        FSOp.removeFile source]).1 source = none := by
    intro fs' hc'
    have hst : ¬source = target := fun h => hne h.symm
    have hrun : runOps fs' [FSOp.copyFile source target, FSOp.removeFile source] =
        (fsRemove (fsSet fs' target c) source, true) := by
      simp [runOps, applyOp, hc', fsGet_fsSet, hst]
    rw [hrun]
    refine ⟨rfl, ?_, ?_⟩
    · rw [fsGet_fsRemove, if_neg hne, fsGet_fsSet, if_pos rfl]
    · rw [fsGet_fsRemove, if_pos rfl]
  cases hpar : parentDir target with
  | none =>
    have hops : moveOps source target =
        [FSOp.copyFile source target, FSOp.removeFile source] := by
      rw [moveOps, hpar]
      rfl
    rw [hops]
    exact hrest fs hc
  | some par =>
    have hops : moveOps source target =
        [FSOp.mkdirs par, FSOp.copyFile source target,
          FSOp.removeFile source] := by
      rw [moveOps, hpar]
      rfl
    rw [hops, runOps, applyOp]
    exact hrest fs hc

-- Initialization helpers.

theorem vals_initRecords_fold {x : Action} (tree : List Str)
    (acc : List (Str × Action)) :
    x ∈ valsOf (tree.foldl (fun acc p => insertSorted p (.ignore p) acc) acc) →
      x ∈ valsOf acc ∨ ∃ p ∈ tree, x = .ignore p := by
  induction tree generalizing acc with
  | nil =>
    intro hx
    exact Or.inl hx
  | cons p ps ih =>
    intro hx
    rw [List.foldl_cons] at hx
    rcases ih _ hx with h | ⟨r, hr, hxr⟩
    · rcases vals_insertSorted _ _ _ h with h' | h'
      · exact Or.inr ⟨p, List.mem_cons_self _ _, h'⟩
      · exact Or.inl h'
    · exact Or.inr ⟨r, List.mem_cons_of_mem _ hr, hxr⟩

theorem sourcesPath_ne_targetsPath (w : Workspace) :
    w.sourcesPath ≠ w.targetsPath := by
  intro h
  rw [Workspace.sourcesPath, Workspace.targetsPath, joinPath, joinPath] at h
  have := List.append_cancel_left h
  rw [List.cons.injEq] at this
  exact absurd this.2 (by decide)

theorem ofLine_ignore_inv {s c : Str} (h : Action.ofLine s = .ignore c) :
    c ≠ [] ∧ trimS c = c := by
  by_cases h1 : trimS s = []
  · rw [(ofLine_cases s).1 h1] at h
    exact absurd h (by simp)
  · cases hws : startsWS s with
    | true =>
      rw [(ofLine_cases s).2.1 h1 hws] at h
      cases h
      exact ⟨h1, trimS_idem s⟩
    | false =>
      rw [(ofLine_cases s).2.2 h1 hws] at h
      exact absurd h (by simp)

-- Claims.

/-- C1 (counterexample): the round-trip law fails as stated. `Ignore("")`
formats to a single space, and the single-space line re-parses to `Delete`
(the all-whitespace check runs first), not to `Ignore("")`. -/
theorem roundtrip_ignore_empty_cex :
    Action.format (.ignore []) = [' '] ∧
    Action.ofLine [' '] = .delete ∧
    Action.ofLine (Action.format (.ignore [])) = .delete ∧
    (Action.ignore [] : Action) ≠ .delete := by
  refine ⟨rfl, by decide, by decide, by decide⟩

/-- C1 (amended): `parse(format(a))` reproduces `a` for `Delete`, for
`Move` of a non-empty path whose first character is not whitespace, and for
`Ignore` of a non-empty comment equal to its own trim; `Ignore("")` formats
to a single space which — exactly like the empty line — parses to `Delete`,
not to `Ignore("")`. -/
theorem roundtrip_law_amended :
    (∀ a : Action,
      (a = .delete ∨ (∃ p, a = .move p ∧ p ≠ [] ∧ startsWS p = false) ∨
        (∃ c, a = .ignore c ∧ c ≠ [] ∧ trimS c = c)) →
      Action.ofLine (Action.format a) = a) ∧
    Action.format (.ignore []) = [' '] ∧
    Action.ofLine [' '] = .delete ∧
    Action.ofLine [] = .delete := by
  refine ⟨?_, rfl, by decide, by decide⟩
  intro a h
  rcases h with h | ⟨p, hp, h1, h2⟩ | ⟨c, hc, h1, h2⟩
  · rw [h]
    exact ofLine_format_delete
  · rw [hp]
    exact ofLine_format_move h1 h2
  · rw [hc]
    exact ofLine_format_ignore h2 h1

/-- Witness for the amended round-trip law at concrete inputs. -/
theorem roundtrip_law_amended_witness :
    Action.ofLine (Action.format (.move ['a'])) = .move ['a'] ∧
    Action.ofLine (Action.format (.ignore ['x'])) = .ignore ['x'] :=
  ⟨roundtrip_law_amended.1 (.move ['a'])
      (Or.inr (Or.inl ⟨['a'], rfl, by decide, by decide⟩)),
    roundtrip_law_amended.1 (.ignore ['x'])
      (Or.inr (Or.inr ⟨['x'], rfl, by decide, by decide⟩))⟩

/-- C2: parsing a line is decided by three cases in order: an all-whitespace
(trimmed-empty) line is `Delete`; otherwise a line whose first character is
whitespace is `Ignore` of the trimmed line; otherwise the result is `Move`
of the raw, unmodified line. -/
theorem parse_three_cases (s : Str) :
    (trimS s = [] → Action.ofLine s = .delete) ∧
    (trimS s ≠ [] → startsWS s = true → Action.ofLine s = .ignore (trimS s)) ∧
    (trimS s ≠ [] → startsWS s = false → Action.ofLine s = .move s) :=
  ofLine_cases s

/-- Witness for the three parse cases at concrete lines. -/
theorem parse_three_cases_witness :
    Action.ofLine [' '] = .delete ∧
    Action.ofLine [' ', 'x'] = .ignore ['x'] ∧
    Action.ofLine ['a', ' '] = .move ['a', ' '] :=
  ⟨(parse_three_cases [' ']).1 (by decide),
    (parse_three_cases [' ', 'x']).2.1 (by decide) (by decide),
    (parse_three_cases ['a', ' ']).2.2 (by decide) (by decide)⟩

/-- C3: reconciling a sorted mapping against the sorted current tree yields
a mapping whose key list is exactly the tree; a path in both keeps its old
action unchanged (whatever it is), a path only in the tree is added as
`Ignore` of its own display text, and a path not in the tree is absent. -/
theorem update_reconciliation_spec (tree : List Str)
    (recs : List (Str × Action))
    (ht : List.Sorted (· < ·) tree)
    (hr : List.Sorted (· < ·) (keysOf recs)) :
    keysOf (mergeRecords tree recs) = tree ∧
    (∀ p v, p ∈ tree → alookup p recs = some v →
      alookup p (mergeRecords tree recs) = some v) ∧
    (∀ p, p ∈ tree → alookup p recs = none →
      alookup p (mergeRecords tree recs) = some (.ignore p)) ∧
    (∀ p, p ∉ tree → alookup p (mergeRecords tree recs) = none) := by
  refine ⟨mergeRecords_keys tree recs, ?_, ?_, ?_⟩
  · intro p v hp hv
    rw [mergeRecords_alookup p tree recs ht hr hp, hv]
    rfl
  · intro p hp hv
    rw [mergeRecords_alookup p tree recs ht hr hp, hv]
    rfl
  · intro p hp
    rw [alookup_eq_none_iff, mergeRecords_keys]
    exact hp

/-- Witness for the reconciliation specification: `b` keeps its pending
`Delete`, newly scanned `a` is added as `Ignore("a")`, vanished `c` is
dropped. -/
theorem update_reconciliation_spec_witness :
    keysOf (mergeRecords [['a'], ['b']] [(['b'], .delete), (['c'], .delete)]) =
      [['a'], ['b']] ∧
    alookup ['b'] (mergeRecords [['a'], ['b']]
      [(['b'], .delete), (['c'], .delete)]) = some .delete ∧
    alookup ['a'] (mergeRecords [['a'], ['b']]
      [(['b'], .delete), (['c'], .delete)]) = some (.ignore ['a']) ∧
    alookup ['c'] (mergeRecords [['a'], ['b']]
      [(['b'], .delete), (['c'], .delete)]) = none := by
  have h := update_reconciliation_spec [['a'], ['b']]
    [(['b'], .delete), (['c'], .delete)] (by decide) (by decide)
  exact ⟨h.1, h.2.1 ['b'] .delete (by decide) (by decide),
    h.2.2.1 ['a'] (by decide) (by decide),
    h.2.2.2 ['c'] (by decide)⟩

/-- C5: importing a source list of M lines against a target list of N lines
leaves exactly the trailing `M − N` source lines unmapped, exactly the
parsed trailing `N − M` target lines unmapped, builds a mapping of at most
`min M N` entries in which a later duplicate source line overwrites an
earlier one (last write wins), and is clean iff `M = N`. -/
theorem import_alignment_spec (w : Workspace) (S T : List Str) :
    (importLines w S T).unmappedSources = S.drop T.length ∧
    (importLines w S T).unmappedTargets = (T.drop S.length).map Action.ofLine ∧
    (importLines w S T).records.length ≤ min S.length T.length ∧
    ((importLines w S T).isClean = true ↔ S.length = T.length) ∧
    (∀ k, alookup k (importLines w S T).records =
      alookup k ((S.zip (T.map Action.ofLine)).reverse)) := by
  refine ⟨importGo_unmappedSources w [] S T, importGo_unmappedTargets w [] S T,
    ?_, importLines_isClean_iff w S T, ?_⟩
  · have h := importGo_records_length w [] S T
    simpa using h
  · intro k
    rw [importLines, importGo_alookup]
    rw [show alookup k [] = none from rfl, Option.or_none]

/-- C6: an import is clean iff both overflow lists are empty; `clean`
promotes exactly the clean imports, preserving workspace and mapping; and
a non-clean import makes both `update` and `execute` refuse with
`NotClean`. -/
theorem clean_gatekeeping :
    (∀ st : ImportState, st.isClean = true ↔
      st.unmappedSources = [] ∧ st.unmappedTargets = []) ∧
    (∀ (st : ImportState) (cs : ChangeSet), st.clean = some cs ↔
      st.isClean = true ∧ cs = ⟨st.workspace, st.records⟩) ∧
    (∀ (w : Workspace) (S T tree : List Str) (tgtRoot : Str) (fs : FS),
      (importLines w S T).isClean = false →
      updateRun w tree S T = .error .notClean ∧
      executeRun w tgtRoot S T fs = .error .notClean) := by
  refine ⟨?_, ?_, ?_⟩
  · intro st
    rw [ImportState.isClean, Bool.and_eq_true, List.isEmpty_iff, List.isEmpty_iff]
  · intro st cs
    rw [ImportState.clean]
    by_cases h : st.isClean = true
    · rw [if_pos h]
      constructor
      · intro hc
        exact ⟨h, (Option.some.injEq _ _ ▸ hc).symm⟩
      · intro ⟨_, hc⟩
        rw [hc]
    · rw [if_neg h]
      constructor
      · intro hc
        exact absurd hc (by simp)
      · intro ⟨hcl, _⟩
        exact absurd hcl h
  · intro w S T tree tgtRoot fs h
    have hcl : (importLines w S T).clean = none := by
      rw [ImportState.clean, if_neg (by rw [h] ; exact Bool.false_ne_true)]
    constructor
    · unfold updateRun
      rw [hcl]
    · unfold executeRun
      rw [hcl]

/-- Witness for the cleanliness gate: a one-line source list with an empty
target list is not clean, and both commands refuse it. -/
theorem clean_gatekeeping_witness :
    (ImportState.clean ⟨⟨[]⟩, [], [['a']], []⟩ = some ⟨⟨[]⟩, []⟩ ↔
      ImportState.isClean ⟨⟨[]⟩, [], [['a']], []⟩ = true ∧
      (⟨⟨[]⟩, []⟩ : ChangeSet) = ⟨⟨[]⟩, []⟩) ∧
    updateRun ⟨[]⟩ [] [['a']] [] = .error .notClean ∧
    executeRun ⟨[]⟩ ['o'] [['a']] [] [] = .error .notClean := by
  refine ⟨clean_gatekeeping.2.1 ⟨⟨[]⟩, [], [['a']], []⟩ ⟨⟨[]⟩, []⟩, ?_⟩
  exact clean_gatekeeping.2.2 ⟨[]⟩ [['a']] [] [] ['o'] [] (by decide)

/-- C4 (counterexample): update is not byte-idempotent for every tree. For
a scanned path `" x"` (leading space) the first run writes the target line
`"  x"`, which re-parses to `Ignore("x")`, so the second run writes the
different target line `" x"`. -/
theorem update_idempotent_cex :
    updateRun ⟨[]⟩ [[' ', 'x']] [] [] =
      .ok ([[' ', 'x']], [[' ', ' ', 'x']]) ∧
    updateRun ⟨[]⟩ [[' ', 'x']] [[' ', 'x']] [[' ', ' ', 'x']] =
      .ok ([[' ', 'x']], [[' ', 'x']]) ∧
    ([[' ', ' ', 'x']] : List Str) ≠ [[' ', 'x']] ∧
    unlines [[' ', ' ', 'x']] ≠ unlines [[' ', 'x']] := by
  have hm1 : mergeRecords [[' ', 'x']] ([] : List (Str × Action)) =
      [([' ', 'x'], Action.ignore [' ', 'x'])] := by
    rw [mergeRecords, mergeRecords]
  have himp : (importLines ⟨[]⟩ [[' ', 'x']] [[' ', ' ', 'x']]).records =
      [([' ', 'x'], Action.ignore ['x'])] := by decide
  have hm2 : mergeRecords [[' ', 'x']] [([' ', 'x'], Action.ignore ['x'])] =
      [([' ', 'x'], Action.ignore ['x'])] := by
    rw [mergeRecords, if_neg (lt_irrefl _), if_pos rfl, mergeRecords]
  refine ⟨?_, ?_, by decide, by decide⟩
  · rw [updateRun_clean_eq ⟨[]⟩ [[' ', 'x']] [] [] rfl,
      show (importLines ⟨[]⟩ [] []).records = [] from rfl, hm1]
    rfl
  · rw [updateRun_clean_eq ⟨[]⟩ [[' ', 'x']] [[' ', 'x']] [[' ', ' ', 'x']] rfl,
      himp, hm2]
    rfl

/-- C4 (amended): update is byte-idempotent whenever every scanned path is
non-empty and carries no leading or trailing whitespace: if a clean run of
update over such a tree writes the sidecar line lists `(S₁, T₁)`, then a
second run over the same tree reading those files writes exactly
`(S₁, T₁)` again. -/
theorem update_idempotent (w : Workspace) (tree S T S₁ T₁ : List Str)
    (htree : List.Sorted (· < ·) tree)
    (hpaths : ∀ p ∈ tree, trimS p = p ∧ p ≠ [])
    (h1 : updateRun w tree S T = .ok (S₁, T₁)) :
    updateRun w tree S₁ T₁ = .ok (S₁, T₁) := by
  by_cases hlen : S.length = T.length
  · rw [updateRun_clean_eq w tree S T hlen] at h1
    have hpair : (exportSources (mergeRecords tree (importLines w S T).records),
        exportTargets (mergeRecords tree (importLines w S T).records)) =
        (S₁, T₁) := by
      injection h1
    have hS₁ : S₁ =
        exportSources (mergeRecords tree (importLines w S T).records) :=
      (congrArg Prod.fst hpair).symm
    have hT₁ : T₁ =
        exportTargets (mergeRecords tree (importLines w S T).records) :=
      (congrArg Prod.snd hpair).symm
    have hkeys : keysOf (mergeRecords tree (importLines w S T).records) = tree :=
      mergeRecords_keys tree (importLines w S T).records
    have hsort :
        List.Sorted (· < ·)
          (keysOf (mergeRecords tree (importLines w S T).records)) := by
      rw [hkeys]
      exact htree
    have himp : importLines w S₁ T₁ =
        ⟨w, mergeRecords tree (importLines w S T).records, [], []⟩ := by
      rw [hS₁, hT₁, import_of_exported w _ hsort,
        map_reparse_id _ (merged_vals_reparse w tree S T hpaths)]
    have hlen2 : S₁.length = T₁.length := by
      rw [hS₁, hT₁, exportSources, exportTargets, List.length_map,
        List.length_map]
    rw [updateRun_clean_eq w tree S₁ T₁ hlen2, himp]
    have hself : mergeRecords tree (mergeRecords tree
        (importLines w S T).records) =
        mergeRecords tree (importLines w S T).records := by
      have hs := mergeRecords_self
        (mergeRecords tree (importLines w S T).records) hsort
      rw [hkeys] at hs
      exact hs
    rw [show (ImportState.mk w (mergeRecords tree (importLines w S T).records)
        [] []).records = mergeRecords tree (importLines w S T).records from rfl,
      hself, hS₁, hT₁]
  · rw [updateRun_not_clean w tree S T hlen] at h1
    exact absurd h1 (by simp)

/-- Witness for amended update idempotence on the one-file tree `a`. -/
theorem update_idempotent_witness :
    updateRun ⟨[]⟩ [['a']] [['a']] [[' ', 'a']] =
      .ok ([['a']], [[' ', 'a']]) :=
  update_idempotent ⟨[]⟩ [['a']] [] [] [['a']] [[' ', 'a']]
    (by decide) (by decide)
    (by rw [updateRun_clean_eq ⟨[]⟩ [['a']] [] [] rfl,
          show (importLines ⟨[]⟩ [] []).records = [] from rfl,
          show mergeRecords [['a']] ([] : List (Str × Action)) =
            [(['a'], Action.ignore ['a'])] from by rw [mergeRecords, mergeRecords]]
        rfl)

/-- C7: a single move first creates the destination's missing parent
directories, then duplicates the source to the destination, and removes the
source only last; stopping anywhere before the final removal leaves the
source file's contents untouched, and a completed move leaves the
destination holding the source's bytes with the source gone. -/
theorem move_ordering_safety (source target : Str) (fs : FS) :
    moveOps source target =
      ((parentDir target).toList.map FSOp.mkdirs) ++
        [FSOp.copyFile source target, FSOp.removeFile source] ∧
    (∀ k, k < (moveOps source target).length →
      fsGet (runOps fs ((moveOps source target).take k)).1 source =
        fsGet fs source) ∧
    (∀ c, fsGet fs source = some c → target ≠ source →
      (runOps fs (moveOps source target)).2 = true ∧
      fsGet (runOps fs (moveOps source target)).1 target = some c ∧
      fsGet (runOps fs (moveOps source target)).1 source = none) :=
  ⟨rfl, fun k hk => moveOps_take_source source target fs k hk,
    fun c hc hne => moveOps_success source target fs c hc hne⟩

/-- Witness for the move ordering guarantees: moving `s` (contents `x`)
to `o/t`. -/
theorem move_ordering_safety_witness :
    fsGet (runOps [(['s'], ['x'])]
      ((moveOps ['s'] ['o', '/', 't']).take 2)).1 ['s'] = some ['x'] ∧
    (runOps [(['s'], ['x'])] (moveOps ['s'] ['o', '/', 't'])).2 = true ∧
    fsGet (runOps [(['s'], ['x'])]
      (moveOps ['s'] ['o', '/', 't'])).1 ['o', '/', 't'] = some ['x'] ∧
    fsGet (runOps [(['s'], ['x'])]
      (moveOps ['s'] ['o', '/', 't'])).1 ['s'] = none := by
  have h := move_ordering_safety ['s'] ['o', '/', 't'] [(['s'], ['x'])]
  have h2 := h.2.2 ['x'] (by decide) (by decide)
  exact ⟨h.2.1 2 (by decide), h2.1, h2.2.1, h2.2.2⟩

/-- C8 (counterexample): execution is not guaranteed to leave the sidecar
files untouched for every clean changeset: a changeset whose source column
names `.mmv.sources` itself with action `Delete` makes execution remove
that sidecar file. -/
theorem execute_sidecar_cex :
    fsGet [((⟨['w']⟩ : Workspace).sourcesPath, ['d']),
        ((⟨['w']⟩ : Workspace).targetsPath, ['e'])]
      (⟨['w']⟩ : Workspace).sourcesPath = some ['d'] ∧
    (execRecords ['w'] ['o']
      [((⟨['w']⟩ : Workspace).sourcesPath, ['d']),
        ((⟨['w']⟩ : Workspace).targetsPath, ['e'])]
      [(mmvSourcesName, Action.delete)]).2 = true ∧
    fsGet (execRecords ['w'] ['o']
      [((⟨['w']⟩ : Workspace).sourcesPath, ['d']),
        ((⟨['w']⟩ : Workspace).targetsPath, ['e'])]
      [(mmvSourcesName, Action.delete)]).1
      (⟨['w']⟩ : Workspace).sourcesPath = none := by
  refine ⟨by decide, by decide, by decide⟩

/-- C8 (amended): execution stops at the first failing record with no
rollback — the effects of earlier records persist, records after the
failure point are not attempted — and the sidecar files are unchanged
provided no record's operations target them (execution itself never
exports; only a plan that explicitly names a sidecar path can touch one). -/
theorem execute_failure_semantics :
    (∀ (wsPath tgtRoot : Str) (fs fs₁ fs₂ : FS)
        (rs₁ rs₂ : List (Str × Action)) (r : Str × Action),
      execRecords wsPath tgtRoot fs rs₁ = (fs₁, true) →
      runOps fs₁ (actionOps wsPath tgtRoot r) = (fs₂, false) →
      execRecords wsPath tgtRoot fs (rs₁ ++ r :: rs₂) = (fs₂, false)) ∧
    (∀ (w : Workspace) (tgtRoot : Str) (fs : FS)
        (records : List (Str × Action)),
      (∀ r ∈ records, ∀ op ∈ actionOps w.path tgtRoot r,
        opTouches op w.sourcesPath = false ∧
        opTouches op w.targetsPath = false) →
      fsGet (execRecords w.path tgtRoot fs records).1 w.sourcesPath =
        fsGet fs w.sourcesPath ∧
      fsGet (execRecords w.path tgtRoot fs records).1 w.targetsPath =
        fsGet fs w.targetsPath) := by
  constructor
  · intro wsPath tgtRoot fs fs₁ fs₂ rs₁ rs₂ r h1 h2
    exact execRecords_first_failure wsPath tgtRoot fs fs₁ fs₂ rs₁ rs₂ r h1 h2
  · intro w tgtRoot fs records h
    constructor
    · exact execRecords_preserve w.path tgtRoot w.sourcesPath fs records
        (fun r hr op hop => (h r hr op hop).1)
    · exact execRecords_preserve w.path tgtRoot w.targetsPath fs records
        (fun r hr op hop => (h r hr op hop).2)

/-- Witness for the execution failure semantics: deleting missing `a`
fails, so the following record `b` is never attempted, and a plan over
ordinary files leaves both sidecars of workspace `w` alone. -/
theorem execute_failure_semantics_witness :
    execRecords ['w'] ['o'] [] ([] ++ (['a'], Action.delete) ::
      [(['b'], Action.delete)]) = ([], false) ∧
    fsGet (execRecords ['w'] ['o'] [((⟨['w']⟩ : Workspace).sourcesPath, ['d'])]
      [(['b'], Action.ignore ['b'])]).1 (⟨['w']⟩ : Workspace).sourcesPath =
      fsGet [((⟨['w']⟩ : Workspace).sourcesPath, ['d'])]
        (⟨['w']⟩ : Workspace).sourcesPath :=
  ⟨execute_failure_semantics.1 ['w'] ['o'] [] [] [] []
      [(['b'], Action.delete)] (['a'], Action.delete) (by decide) (by decide),
    (execute_failure_semantics.2 ⟨['w']⟩ ['o']
      [((⟨['w']⟩ : Workspace).sourcesPath, ['d'])]
      [(['b'], Action.ignore ['b'])] (by decide)).1⟩

/-- C9: init refuses to act — the filesystem is unchanged — when both
sidecar files already exist and no force flag is given; otherwise it
rewrites both sidecar files from the fresh tree scan with every action the
default `Ignore` carrying the path's own display text. -/
theorem init_gate (w : Workspace) (force : Bool) (tree : List Str) (fs : FS) :
    (force = false → isInitialized w fs = true →
      initRun w force tree fs = fs) ∧
    (force = true ∨ isInitialized w fs = false →
      fsGet (initRun w force tree fs) w.sourcesPath =
        some (unlines (exportSources (initRecords tree))) ∧
      fsGet (initRun w force tree fs) w.targetsPath =
        some (unlines (exportTargets (initRecords tree))) ∧
      (∀ x ∈ valsOf (initRecords tree), ∃ p ∈ tree, x = .ignore p)) := by
  constructor
  · intro hforce hinit
    rw [initRun, hforce, hinit]
    rfl
  · intro h
    have hcond : (!force && isInitialized w fs) = false := by
      rcases h with h | h
      · rw [h]
        rfl
      · rw [h, Bool.and_false]
    rw [initRun, hcond]
    rw [if_neg Bool.false_ne_true, writeSidecars]
    refine ⟨?_, ?_, ?_⟩
    · rw [fsGet_fsSet, if_neg (sourcesPath_ne_targetsPath w), fsGet_fsSet,
        if_pos rfl]
    · rw [fsGet_fsSet, if_pos rfl]
    · intro x hx
      rcases vals_initRecords_fold tree [] hx with h' | h'
      · exact absurd h' (by rw [valsOf] ; simp)
      · exact h'

/-- Witness for the init gate: an initialized workspace is left alone
without force, and a forced run rewrites both sidecars from the scan of
the single file `a`. -/
theorem init_gate_witness :
    initRun ⟨[]⟩ false [['a']]
      [((⟨[]⟩ : Workspace).sourcesPath, []),
        ((⟨[]⟩ : Workspace).targetsPath, [])] =
      [((⟨[]⟩ : Workspace).sourcesPath, []),
        ((⟨[]⟩ : Workspace).targetsPath, [])] ∧
    fsGet (initRun ⟨[]⟩ true [['a']] [])
      (⟨[]⟩ : Workspace).sourcesPath =
      some (unlines (exportSources (initRecords [['a']]))) :=
  ⟨(init_gate ⟨[]⟩ false [['a']] _).1 rfl (by decide),
    ((init_gate ⟨[]⟩ true [['a']] []).2 (Or.inl rfl)).1⟩

/-- C10: every `Ignore` the parser produces carries a non-empty comment
equal to its own trim (a line trimming to empty parses to `Delete`
instead), so no action obtained by importing sidecar files — neither in
the mapping nor among the unmapped targets — is an `Ignore` of an empty
or whitespace-padded comment. -/
theorem parser_comment_invariant :
    (∀ s c, Action.ofLine s = .ignore c → c ≠ [] ∧ trimS c = c) ∧
    (∀ (w : Workspace) (S T : List Str) (k c : Str),
      alookup k (importLines w S T).records = some (.ignore c) →
      c ≠ [] ∧ trimS c = c) ∧
    (∀ (w : Workspace) (S T : List Str) (c : Str),
      Action.ignore c ∈ (importLines w S T).unmappedTargets →
      c ≠ [] ∧ trimS c = c) := by
  refine ⟨fun s c h => ofLine_ignore_inv h, ?_, ?_⟩
  · intro w S T k c h
    have hv := alookup_mem_vals h
    rcases importGo_vals w [] S T hv with h' | ⟨t, ht⟩
    · exact absurd h' (by rw [valsOf] ; simp)
    · exact ofLine_ignore_inv ht.symm
  · intro w S T c h
    rw [importLines, importGo_unmappedTargets] at h
    rcases List.mem_map.mp h with ⟨line, -, hline⟩
    exact ofLine_ignore_inv hline

/-- Witness for the parser comment invariant on concrete imports. -/
theorem parser_comment_invariant_witness :
    (['x'] : Str) ≠ [] ∧ trimS ['x'] = ['x'] :=
  parser_comment_invariant.2.1 ⟨[]⟩ [['a']] [[' ', ' ', 'x', ' ']] ['a'] ['x']
    (by decide)

end Mmv
